import Mathlib

/-!
Verification development for the mirror-cache request-resolution and caching
engine (src/cache.rs, src/task.rs).  Rust strings are modelled as lists of
characters, the redis metadata store as typed association lists, and the
filesystem blob store as an association list keyed by (root directory, file
name).  Functions named after source items are translated from the source;
items of this repository that are not among the provided sources
(models.rs, storage.rs) are modelled from the specification and say so in
their doc comments.
-/

/-- Rust `String` / `&str`, modelled at character granularity. -/
abbrev Str := List Char

/-- Lookup in an association list (models a redis key read / a map lookup). -/
def alGet {α β : Type} [DecidableEq α] : List (α × β) → α → Option β
  | [], _ => none
  | p :: rest, k => if p.1 = k then some p.2 else alGet rest k

/-- Delete every binding of a key from an association list. -/
def alDel {α β : Type} [DecidableEq α] : List (α × β) → α → List (α × β)
  | [], _ => []
  | p :: rest, k => if p.1 = k then alDel rest k else p :: alDel rest k

/-- Set a key to a value in an association list (overwrite semantics). -/
def alSet {α β : Type} [DecidableEq α] (l : List (α × β)) (k : α) (v : β) :
    List (α × β) :=
  (k, v) :: alDel l k

/-! ## Sorted sets (the redis zset holding LRU cache keys) -/

/-- Lexicographic order on character lists, as redis orders equal-score zset
members. -/
def strLtB : Str → Str → Bool
  | [], [] => false
  | [], _ :: _ => true
  | _ :: _, [] => false
  | a :: as, b :: bs => if a < b then true else if b < a then false else strLtB as bs

/-- Order on zset elements: by score, ties broken by member, matching the
order `ZPOPMIN` pops in. -/
def zeltLtB (a b : Str × Int) : Bool :=
  decide (a.2 < b.2) || (decide (a.2 = b.2) && strLtB a.1 b.1)

/-- Insert an element into a (score, member)-sorted list, keeping it sorted.
Zsets are represented as sorted lists so that `ZPOPMIN` is the head. -/
def zinsertSorted (e : Str × Int) : List (Str × Int) → List (Str × Int)
  | [] => [e]
  | x :: rest => if zeltLtB e x then e :: x :: rest else x :: zinsertSorted e rest

/-- Remove every pair whose member is `m` (a zset holds one entry per member). -/
def zremMember (m : Str) : List (Str × Int) → List (Str × Int)
  | [] => []
  | x :: rest => if x.1 = m then zremMember m rest else x :: zremMember m rest

/-- Redis `ZADD`: (re)insert member `m` with score `sc`. -/
def zadd (l : List (Str × Int)) (m : Str) (sc : Int) : List (Str × Int) :=
  zinsertSorted (m, sc) (zremMember m l)

/-! ## Cache payloads (CacheData, src/cache.rs lines 18-35) -/

/-- Model of `CacheData`: text, bytes, or a byte stream with an optional
known length.  Bytes are modelled as natural numbers. -/
inductive CacheDataM : Type
  | TextData (s : Str)
  | BytesData (b : List Nat)
  | ByteStream (chunks : List (List Nat)) (size : Option Nat)
deriving DecidableEq

namespace CacheDataM

/-- Model of `CacheData::len` (src/cache.rs lines 28-34).  For a stream the
source reads `size.unwrap()`, which panics when the known length is absent;
the panic is modelled as `none`. -/
def lenM : CacheDataM → Option Nat
  | TextData s => some s.length
  | BytesData b => some b.length
  | ByteStream _ size => size

/-- Bytes a payload writes to the blob store when persisted (for a stream,
`Storage::persist` consumes all chunks). -/
def payloadBytes : CacheDataM → List Nat
  | TextData s => s.map Char.toNat
  | BytesData b => b
  | ByteStream chunks _ => chunks.flatten

end CacheDataM

/-! ## Keys (src/cache.rs lines 124-153 and 375-380) -/

/-- Model of `LruRedisCache::to_prefixed_key`: `format!("{}_{}", id, key)`. -/
def toPrefixedKey (id cacheKey : Str) : Str := id ++ '_' :: cacheKey

/-- Model of `LruRedisCache::from_prefixed_key`: drop the id and the
separator (`&cache_key[self.id.len() + 1..]`). -/
def fromPrefixedKey (id s : Str) : Str := s.drop (id.length + 1)

/-- Model of `LruRedisCache::total_size_key`. -/
def totalSizeKey (id : Str) : Str := toPrefixedKey id "total_size".data

/-- Model of `LruRedisCache::entries_zlist_key`. -/
def entriesZlistKey (id : Str) : Str := toPrefixedKey id "cache_keys".data

/-- Model of `TtlRedisCache::to_redis_key`: `format!("{}/{}", id, key)`. -/
def ttlToRedisKey (id cacheKey : Str) : Str := id ++ '/' :: cacheKey

/-- Model of `TtlRedisCache::from_redis_key`: `&key[id.len() + 1..]`. -/
def ttlFromRedisKey (id s : Str) : Str := s.drop (id.length + 1)

/-- Modelled from the spec: the blob store layout (spec sections 4.1 and 6)
is the concatenated filesystem path `<root>/<cache_key>`; a cache key may
contain `/` and is treated as a relative path under the configured root
directory, so paths of instances with nested root directories can alias. -/
def fsPath (root file : Str) : Str := root ++ '/' :: file

/-! ## The shared metadata store and the blob stores -/

/-- Model of `LruCacheMetadata` (src/cache.rs lines 448-452): the `size` and
`atime` fields of an LRU entry hash.  The hash's `path` field always holds
the prefixed key itself (see `CacheEntry::new`) and is left implicit. -/
structure LruCacheMetadata where
  size : Nat
  atime : Int
deriving DecidableEq

/-- The world: one shared redis instance (string-integer keys, entry hashes,
zsets, and the TTL policy's presence-marker string keys), plus the
filesystem, keyed by the full file path: each cache instance reads and
writes the paths `fsPath` builds under the root directory it was configured
with. -/
structure World where
  kv : List (Str × Nat)
  hashes : List (Str × LruCacheMetadata)
  zsets : List (Str × List (Str × Int))
  strs : List Str
  fs : List (Str × List Nat)
deriving DecidableEq

/-- The empty world: a fresh redis database and an empty filesystem. -/
def World.empty : World := ⟨[], [], [], [], []⟩

/-- Read a zset (absent key = empty zset). -/
def zget (w : World) (zk : Str) : List (Str × Int) :=
  (alGet w.zsets zk).getD []

/-- Write a zset back. -/
def zput (w : World) (zk : Str) (l : List (Str × Int)) : World :=
  { w with zsets := alSet w.zsets zk l }

/-! ## LruRedisCache (src/cache.rs lines 94-269) -/

/-- Configuration of one `LruRedisCache` instance: its unique `id`, its byte
`size_limit`, and the `root_dir` of its filesystem blob store. -/
structure LruCfg where
  id : Str
  size_limit : Nat
  root : Str

/-- Model of `LruRedisCache::get_total_size`: read the `total_size` key,
`unwrap_or(0)` when absent.  (The source reads it over a connection of its
own, outside the eviction transaction; in this sequential model the value
is the same either way.) -/
def getTotalSize (cfg : LruCfg) (w : World) : Nat :=
  (alGet w.kv (totalSizeKey cfg.id)).getD 0

/-- The `size` field of the entry hash at `k`, `unwrap_or(0)` when the key
or the field is absent. -/
def sizeD (hashes : List (Str × LruCacheMetadata)) (k : Str) : Nat :=
  ((alGet hashes k).map LruCacheMetadata.size).getD 0

/-- One pass of the eviction `while` loop in `LruRedisCache::put`
(src/cache.rs lines 180-222), recursing over the pending zset entries in
pop order.  Observable effects of each iteration, in source order:
`zpopmin` (here: take the head of the sorted pending list), `storage.remove`
of the un-prefixed file, `hget size` with `unwrap_or(0)`, `del` of the entry
hash, and `decr total_size`.  The redis commands are issued immediately on
the watched connection (the transaction `pipe` is never used), so they take
effect even when the closure later aborts; when eviction is still required
but `zpopmin` returns nothing the closure returns `Err` ("cache metadata
inconsistent"), modelled as the `false` flag.  Returns the remaining zset
entries, the updated world, and whether the closure ended with `Ok`. -/
def evictLoop (cfg : LruCfg) (file_size : Nat) :
    List (Str × Int) → Nat → World → List (Str × Int) × World × Bool
  | pending, cur, w =>
    if cur + file_size ≤ cfg.size_limit then (pending, w, true)
    else
      match pending with
      | [] => ([], w, false)
      | (f, _) :: rest =>
        let file := fromPrefixedKey cfg.id f
        let w1 : World := { w with fs := alDel w.fs (fsPath cfg.root file) }
        let pkg_size : Nat := sizeD w1.hashes f
        let w2 : World := { w1 with hashes := alDel w1.hashes f }
        let newTotal : Nat := getTotalSize cfg w2 - pkg_size
        let w3 : World := { w2 with kv := alSet w2.kv (totalSizeKey cfg.id) newTotal }
        evictLoop cfg file_size rest newTotal w3

/-- Modelled from the spec: `models::set_lru_cache_entry` is called by
`LruRedisCache::put` (src/cache.rs line 228) but models.rs is not among the
provided sources.  Per spec section 4.4 step 5 and the re-put requirement
(sections 4.4 and 8, scenario S4): write the entry hash (`path`, `size`,
`atime`), add the prefixed key to the entries index with score = the entry's
atime, and adjust `total_size` so that overwriting an existing entry nets
`new size - old size` (for a fresh key the old size is 0). -/
def setLruCacheEntry (cfg : LruCfg) (w : World) (redis_key : Str)
    (size : Nat) (now : Int) : World :=
  let old : Nat := sizeD w.hashes redis_key
  let zk := entriesZlistKey cfg.id
  { w with
    hashes := alSet w.hashes redis_key ⟨size, now⟩
    zsets := alSet w.zsets zk (zadd (zget w zk) redis_key now)
    kv := alSet w.kv (totalSizeKey cfg.id) (getTotalSize cfg w - old + size) }

namespace LruRedisCache

/-- Model of `LruRedisCache::put` (src/cache.rs lines 163-236), at time
`now` (the epoch seconds `util::now()` would return).  Steps, in source
order: compute `file_size = entry.len()` (panics - modelled as `none` -
when the payload is a stream without a known length); log-only oversize
check (the source does NOT return early when `file_size > size_limit`);
run the eviction transaction; ignore its result (`let _tx_result = ...`);
`storage.persist` the blob under the un-prefixed key; and
`models::set_lru_cache_entry` for the prefixed key.  The zset is written
back after the loop, which is equivalent because nothing inside the loop
reads it. -/
def put (cfg : LruCfg) (now : Int) (key : Str) (entry : CacheDataM)
    (w : World) : Option World :=
  match entry.lenM with
  | none => none
  | some file_size =>
    let redis_key := toPrefixedKey cfg.id key
    let zk := entriesZlistKey cfg.id
    let r := evictLoop cfg file_size (zget w zk) (getTotalSize cfg w) w
    let w1 := zput r.2.1 zk r.1
    let w2 : World :=
      { w1 with fs := alSet w1.fs (fsPath cfg.root key) entry.payloadBytes }
    some (setLruCacheEntry cfg w2 redis_key file_size now)

/-- Modelled from the spec: `models::update_cache_entry_atime` (called by
`LruRedisCache::get`, src/cache.rs line 247) is not among the provided
sources.  Per spec section 4.4: set the entry's `atime` and its score in the
entries index to now. -/
def updateCacheEntryAtime (cfg : LruCfg) (w : World) (redis_key : Str)
    (now : Int) : World :=
  match alGet w.hashes redis_key with
  | none => w
  | some meta =>
    let zk := entriesZlistKey cfg.id
    { w with
      hashes := alSet w.hashes redis_key ⟨meta.size, now⟩
      zsets := alSet w.zsets zk (zadd (zget w zk) redis_key now) }

/-- Model of `LruRedisCache::get` (src/cache.rs lines 238-268):
`models::get_cache_entry` reads the entry hash (modelled from the spec,
models.rs being absent: a hash read); on a hit the atime is updated (an
update error is only logged) and the blob is read from the instance's own
storage, a failed read degrading to `None`; on a miss, `None`. -/
def get (cfg : LruCfg) (now : Int) (key : Str) (w : World) :
    Option (List Nat) × World :=
  let redis_key := toPrefixedKey cfg.id key
  match alGet w.hashes redis_key with
  | some _ =>
    let w1 := updateCacheEntryAtime cfg w redis_key now
    match alGet w1.fs (fsPath cfg.root key) with
    | some data => (some data, w1)
    | none => (none, w1)
  | none => (none, w)

end LruRedisCache

/-! ## TtlRedisCache (src/cache.rs lines 276-425) -/

/-- Configuration of one `TtlRedisCache` instance. -/
structure TtlCfg where
  id : Str
  ttl : Nat
  root : Str

namespace TtlRedisCache

/-- Model of `TtlRedisCache::put` (src/cache.rs lines 385-403): persist the
blob, then `models::set` the marker key `<id>/<key>` to `""` and
`models::expire` it (both modelled from the spec, models.rs being absent:
a string set with a TTL; set/expire failures are only logged).  The pending
expiry itself is modelled as a separate reaper event, not as world state. -/
def put (cfg : TtlCfg) (key : Str) (entry : CacheDataM) (w : World) : World :=
  let redis_key := ttlToRedisKey cfg.id key
  let w1 : World := { w with fs := alSet w.fs (fsPath cfg.root key) entry.payloadBytes }
  { w1 with strs := redis_key :: w1.strs.filter (fun s => s ≠ redis_key) }

/-- Model of `TtlRedisCache::get` (src/cache.rs lines 405-424): if the
marker key exists, read the blob from the instance's own storage (a failed
read degrades to `None`); else `None`. -/
def get (cfg : TtlCfg) (key : Str) (w : World) : Option (List Nat) :=
  let redis_key := ttlToRedisKey cfg.id key
  if redis_key ∈ w.strs then alGet w.fs (fsPath cfg.root key) else none

end TtlRedisCache

/-! ## Tasks and cache-key derivation (src/task.rs lines 19-25 and 141-150) -/

/-- Model of the `Task` enum: the closed sum of request kinds.  (Named
`TaskM` because `Task` is taken by the Lean core library.) -/
inductive TaskM : Type
  | PypiIndexTask (pkg_name : Str)
  | PypiPackagesTask (pkg_path : Str)
  | AnacondaTask (path : Str)
  | Others (rule_id : Nat) (url : Str)
deriving DecidableEq

/-- Model of Rust `url.replace("http://", "http/")`: replace every
non-overlapping occurrence, scanning left to right. -/
def replaceHttp : Str → Str
  | 'h' :: 't' :: 't' :: 'p' :: ':' :: '/' :: '/' :: rest =>
    'h' :: 't' :: 't' :: 'p' :: '/' :: replaceHttp rest
  | c :: rest => c :: replaceHttp rest
  | [] => []

/-- Model of Rust `....replace("https://", "https/")`: replace every
non-overlapping occurrence, scanning left to right. -/
def replaceHttps : Str → Str
  | 'h' :: 't' :: 't' :: 'p' :: 's' :: ':' :: '/' :: '/' :: rest =>
    'h' :: 't' :: 't' :: 'p' :: 's' :: '/' :: replaceHttps rest
  | c :: rest => c :: replaceHttps rest
  | [] => []

/-- Model of `Task::to_key` (src/task.rs lines 141-150). -/
def TaskM.to_key : TaskM → Str
  | .PypiIndexTask pkg_name => "pypi_index_".data ++ pkg_name
  | .PypiPackagesTask pkg_path => pkg_path
  | .AnacondaTask path => "anaconda_".data ++ path
  | .Others _ url => replaceHttps (replaceHttp url)

/-- One simultaneous left-to-right pass replacing `https://` by `https/` and
`http://` by `http/`, written from the spec's wording (section 4.7: "a URL
with `http://`/`https://` replaced by `http/`/`https/`").  The two patterns
cannot overlap: they differ at their fifth character. -/
def specUrlRewrite : Str → Str
  | 'h' :: 't' :: 't' :: 'p' :: 's' :: ':' :: '/' :: '/' :: rest =>
    'h' :: 't' :: 't' :: 'p' :: 's' :: '/' :: specUrlRewrite rest
  | 'h' :: 't' :: 't' :: 'p' :: ':' :: '/' :: '/' :: rest =>
    'h' :: 't' :: 't' :: 'p' :: '/' :: specUrlRewrite rest
  | c :: rest => c :: specUrlRewrite rest
  | [] => []

/-- The cache key per task variant as the spec words it (sections 4.7 and
3): `pypi_index_<name>`, `<pkg_path>`, `anaconda_<path>`, or the URL with
every `http://` replaced by `http/` and every `https://` replaced by
`https/`. -/
def specTaskKey : TaskM → Str
  | .PypiIndexTask pkg_name => "pypi_index_".data ++ pkg_name
  | .PypiPackagesTask pkg_path => pkg_path
  | .AnacondaTask path => "anaconda_".data ++ path
  | .Others _ url => specUrlRewrite url
/-! ## Sequences of operations -/

/-- Run a sequence of `put`s against one LRU cache instance.  Each element
carries the wall-clock time of the call, the cache key and the payload.
`none` propagates a panic inside a `put`. -/
def runPuts (cfg : LruCfg) : List (Int × Str × CacheDataM) → World → Option World
  | [], w => some w
  | (now, key, d) :: ops, w =>
    match LruRedisCache.put cfg now key d w with
    | none => none
    | some w1 => runPuts cfg ops w1

/-- The world a `put` sequence ends in (the start world when a put
panicked): a total version of `runPuts` for stating concrete evaluations. -/
def runPutsD (cfg : LruCfg) (ops : List (Int × Str × CacheDataM)) (w : World) : World :=
  (runPuts cfg ops w).getD w

/-- The world one `put` ends in (the start world when it panicked). -/
def putD (cfg : LruCfg) (now : Int) (key : Str) (d : CacheDataM) (w : World) : World :=
  (LruRedisCache.put cfg now key d w).getD w

/-- Is a payload admissible to an LRU cache of this configuration: a known
length that does not exceed the size limit? -/
def sizeOkB (cfg : LruCfg) (d : CacheDataM) : Bool :=
  match d.lenM with
  | some n => decide (n ≤ cfg.size_limit)
  | none => false

/-- A cache instance: LRU-bounded or TTL-bounded (the two concrete policies
of src/cache.rs). -/
inductive Inst : Type
  | lru (cfg : LruCfg)
  | ttl (cfg : TtlCfg)

/-- The blob-store root directory of an instance. -/
def Inst.root : Inst → Str
  | .lru cfg => cfg.root
  | .ttl cfg => cfg.root

/-- The id of an instance. -/
def Inst.id : Inst → Str
  | .lru cfg => cfg.id
  | .ttl cfg => cfg.id

/-- `put` dispatched on the instance's policy. -/
def Inst.put (i : Inst) (now : Int) (key : Str) (d : CacheDataM) (w : World) :
    Option World :=
  match i with
  | .lru cfg => LruRedisCache.put cfg now key d w
  | .ttl cfg => some (TtlRedisCache.put cfg key d w)

/-- `get` dispatched on the instance's policy (result and updated world). -/
def Inst.get (i : Inst) (now : Int) (key : Str) (w : World) :
    Option (List Nat) × World :=
  match i with
  | .lru cfg => LruRedisCache.get cfg now key w
  | .ttl cfg => (TtlRedisCache.get cfg key w, w)

/-- One operation of an interleaving over two cache instances A and B that
share one metadata store: a `put` or a `get` on either instance, or one
reaction of a TTL expiration listener (src/cache.rs lines 296-364), which
deletes a file path under its own instance's root directory. -/
inductive CacheOp : Type
  | putA (now : Int) (key : Str) (d : CacheDataM)
  | getA (now : Int) (key : Str)
  | putB (now : Int) (key : Str) (d : CacheDataM)
  | getB (now : Int) (key : Str)
  | reapA (file : Str)
  | reapB (file : Str)

/-- Run an interleaving of operations on instances `a` and `b` over the
shared world.  `none` propagates a panic. -/
def runOps (a b : Inst) : List CacheOp → World → Option World
  | [], w => some w
  | op :: ops, w =>
    match op with
    | .putA now key d =>
      match a.put now key d w with
      | none => none
      | some w1 => runOps a b ops w1
    | .getA now key => runOps a b ops (a.get now key w).2
    | .putB now key d =>
      match b.put now key d w with
      | none => none
      | some w1 => runOps a b ops w1
    | .getB now key => runOps a b ops (b.get now key w).2
    | .reapA file => runOps a b ops { w with fs := alDel w.fs (fsPath a.root file) }
    | .reapB file => runOps a b ops { w with fs := alDel w.fs (fsPath b.root file) }

/-- Does an operation list contain a `put` on instance A under key `k`? -/
def putsAKey (k : Str) : List CacheOp → Bool
  | [] => false
  | op :: ops =>
    (match op with
     | .putA _ key _ => decide (key = k)
     | _ => false) || putsAKey k ops

/-- The world an interleaving ends in (the start world when a put panicked):
a total version of `runOps` for stating concrete evaluations. -/
def runOpsD (a b : Inst) (ops : List CacheOp) (w : World) : World :=
  (runOps a b ops w).getD w

/-! ## Fault model of the cache layer (claim C5)

The main model above runs in a fault-free environment.  The definitions
below re-trace the control flow of `LruRedisCache::get`,
`TtlRedisCache::put` and `TtlRedisCache::get` over an explicit environment
recording the outcome of each fallible collaborator call, to settle what
the caller observes under internal faults.  `.error ()` is a collaborator
failure; a function result of `none` is a panic reaching the caller (a Rust
`.unwrap()` on an `Err`), while `some r` is a normal return with `r`. -/

/-- Outcomes of the fallible collaborator calls one cache call performs. -/
structure FaultEnv where
  /-- does `models::get_sync_con(&self.redis_client)` return `Ok`? -/
  connOk : Bool
  /-- result of `models::get_cache_entry` (LRU get). -/
  entryRead : Except Unit (Option LruCacheMetadata)
  /-- result of `models::update_cache_entry_atime` (LRU get). -/
  atimeUpdate : Except Unit Unit
  /-- result of `self.storage.read` (both gets). -/
  blobRead : Except Unit (List Nat)
  /-- result of `models::set` (TTL put). -/
  setRes : Except Unit Unit
  /-- result of `models::expire` (TTL put). -/
  expireRes : Except Unit Unit
  /-- result of `models::get` (TTL get). -/
  strGet : Except Unit (Option Unit)

/-- Fault behavior of `LruRedisCache::get` (src/cache.rs lines 238-268):
`get_sync_con(..).unwrap()` and `get_cache_entry(..).unwrap()` panic on
failure; an atime-update error is only logged; a blob read error degrades
to `None`. -/
def lruGetFaults (env : FaultEnv) : Option (Option (List Nat)) :=
  if !env.connOk then none
  else
    match env.entryRead with
    | .error _ => none
    | .ok none => some none
    | .ok (some _) =>
      match env.atimeUpdate, env.blobRead with
      | _, .ok d => some (some d)
      | _, .error _ => some none

/-- Fault behavior of `TtlRedisCache::put` (src/cache.rs lines 385-403):
`get_sync_con(..).unwrap()` panics on failure; `models::set` and
`models::expire` errors are only logged and `put` returns normally. -/
def ttlPutFaults (env : FaultEnv) : Option Unit :=
  if !env.connOk then none
  else
    match env.setRes, env.expireRes with
    | _, _ => some ()

/-- Fault behavior of `TtlRedisCache::get` (src/cache.rs lines 405-424):
`get_sync_con(..).unwrap()` panics on failure; a `models::get` error is
logged and returns `None`; a blob read error degrades to `None`. -/
def ttlGetFaults (env : FaultEnv) : Option (Option (List Nat)) :=
  if !env.connOk then none
  else
    match env.strGet with
    | .error _ => some none
    | .ok none => some none
    | .ok (some _) =>
      match env.blobRead with
      | .ok d => some (some d)
      | .error _ => some none

/-! ## Task manager spawn deduplication (claim C8)

`TaskManager::spawn_task` (src/task.rs lines 195-262) checks the in-flight
set under a read lock (`taskset_contains`), returns if the task is present,
and otherwise inserts under a separate write lock (`taskset_add`) before
`tokio::spawn`ing the background fetch, which removes the task from the set
when it finishes (`taskset_remove`).  The check and the insertion are two
distinct atomic lock operations with a suspension point between them, so
concurrent `spawn_task` calls for one task interleave at that boundary.
The model below tracks, for one fixed task value: whether it is in the
in-flight set, how many of its background fetches are running, and the
program counter of each pending `spawn_task` call. -/

/-- Program counter of one `spawn_task` call for the fixed task. -/
inductive SpawnPC : Type
  | start
  | checked
  | finished
deriving DecidableEq

/-- State of the task manager restricted to one task value. -/
structure TMState where
  /-- `task_set.contains(t)` -/
  inFlight : Bool
  /-- number of background fetches for `t` currently in flight -/
  fetches : Nat
  /-- pending `spawn_task(t)` calls -/
  threads : List SpawnPC
deriving DecidableEq

/-- Scheduler events: advance one `spawn_task` call by one atomic lock
operation, or let one background fetch complete. -/
inductive TMEv : Type
  | proceed (i : Nat)
  | complete

/-- One fine-grained step of the spawn machinery, as the source interleaves:
`proceed i` runs thread i's next lock operation (`taskset_contains`, then -
if the task was absent - `taskset_add` plus `tokio::spawn`); `complete`
finishes one background fetch, which removes the task from the set. -/
def tmStep (s : TMState) (e : TMEv) : TMState :=
  match e with
  | .proceed i =>
    match s.threads.get? i with
    | some .start =>
      if s.inFlight then { s with threads := s.threads.set i .finished }
      else { s with threads := s.threads.set i .checked }
    | some .checked =>
      { inFlight := true, fetches := s.fetches + 1,
        threads := s.threads.set i .finished }
    | _ => s
  | .complete =>
    if s.fetches > 0 then { s with fetches := s.fetches - 1, inFlight := false }
    else s

/-- Run a schedule from `n` concurrent `spawn_task` calls for the task. -/
def tmRun (n : Nat) (evs : List TMEv) : TMState :=
  evs.foldl tmStep ⟨false, 0, List.replicate n .start⟩

/-- The same machinery when the membership check and the insertion of one
`spawn_task` call execute back to back, with no other `spawn_task` of the
same task interleaved between them (an atomic check-and-insert): a `spawn`
either observes the task in flight and does nothing, or inserts it and
launches one fetch. -/
inductive TMAtomicEv : Type
  | spawn
  | complete

/-- One atomic-spawn step over (in-flight flag, running fetch count). -/
def tmAtomicStep (s : Bool × Nat) (e : TMAtomicEv) : Bool × Nat :=
  match e with
  | .spawn => if s.1 then s else (true, s.2 + 1)
  | .complete => if s.2 > 0 then (false, s.2 - 1) else s

/-- Run an atomic-spawn schedule from the idle state. -/
def tmAtomicRun (evs : List TMAtomicEv) : Bool × Nat :=
  evs.foldl tmAtomicStep (false, 0)

/-! ## LRU metadata consistency invariant (claims C1 and C4) -/

/-- Members of a zset, in order. -/
def zmembers (l : List (Str × Int)) : List Str := l.map Prod.fst

/-- Sum of the `size` fields of the entry hashes of the given zset members
(an absent hash counts 0, as the eviction loop's `unwrap_or(0)` does). -/
def sumSizes (hashes : List (Str × LruCacheMetadata)) (l : List (Str × Int)) : Nat :=
  (l.map (fun p => sizeD hashes p.1)).sum

/-- Consistency of one LRU instance's metadata, the invariant
`LruRedisCache::put` maintains: the entries index has no duplicate members,
a key has an entry hash exactly when it is in the index, and the
`total_size` counter is the sum of the indexed entries' sizes. -/
def LruInv (cfg : LruCfg) (w : World) : Prop :=
  (zmembers (zget w (entriesZlistKey cfg.id))).Nodup ∧
  (∀ m : Str, m ∈ zmembers (zget w (entriesZlistKey cfg.id)) ↔
    (alGet w.hashes m).isSome) ∧
  getTotalSize cfg w = sumSizes w.hashes (zget w (entriesZlistKey cfg.id))

/-! # Theorems -/

/-! ## Association list and zset lemmas -/

theorem alGet_alDel_self {α β : Type} [DecidableEq α]
    (l : List (α × β)) (k : α) : alGet (alDel l k) k = none := by
  induction l with
  | nil => rfl
  | cons p rest ih =>
    by_cases h : p.1 = k <;> simp [alDel, alGet, h, ih]

theorem alGet_alDel_ne {α β : Type} [DecidableEq α]
    (l : List (α × β)) (k m : α) (h : m ≠ k) :
    alGet (alDel l k) m = alGet l m := by
  induction l with
  | nil => rfl
  | cons p rest ih =>
    by_cases hp : p.1 = k
    · have hm : p.1 ≠ m := fun hm => h (hm ▸ hp)
      simp [alDel, alGet, hp, hm, ih, Ne.symm h]
    · simp [alDel, alGet, hp, ih]

theorem alGet_alSet_self {α β : Type} [DecidableEq α]
    (l : List (α × β)) (k : α) (v : β) : alGet (alSet l k v) k = some v := by
  simp [alSet, alGet]

theorem alGet_alSet_ne {α β : Type} [DecidableEq α]
    (l : List (α × β)) (k m : α) (v : β) (h : m ≠ k) :
    alGet (alSet l k v) m = alGet l m := by
  simp only [alSet, alGet]
  rw [if_neg (fun hk => h hk.symm), alGet_alDel_ne l k m h]

theorem zinsertSorted_perm (e : Str × Int) (l : List (Str × Int)) :
    List.Perm (zinsertSorted e l) (e :: l) := by
  induction l with
  | nil => simp [zinsertSorted]
  | cons x rest ih =>
    by_cases h : zeltLtB e x
    · simp [zinsertSorted, h]
    · simp only [zinsertSorted, h, if_false]
      exact (List.Perm.cons x ih).trans (List.Perm.swap e x rest)

/-! ## URL rewriting lemmas (claim C9) -/

theorem replaceHttp_head (l : Str) : (replaceHttp l).head? = l.head? := by
  induction l using replaceHttp.induct <;> simp [replaceHttp]

set_option maxHeartbeats 800000 in
theorem replaceHttp_cons (c : Char) (rest : Str)
    (h : ∀ m, c = 'h' → rest = 't' :: 't' :: 'p' :: ':' :: '/' :: '/' :: m → False) :
    replaceHttp (c :: rest) = c :: replaceHttp rest := by
  rw [replaceHttp.eq_def]
  split
  · rename_i heq
    injection heq with hc hr
    exact ((h _ hc hr)).elim
  · rename_i heq; injection heq with h1 h2; rw [← h1, ← h2]
  · rename_i heq; simp at heq

set_option maxHeartbeats 800000 in
theorem replaceHttps_cons (c : Char) (rest : Str)
    (h : ∀ m, c = 'h' → rest = 't' :: 't' :: 'p' :: 's' :: ':' :: '/' :: '/' :: m → False) :
    replaceHttps (c :: rest) = c :: replaceHttps rest := by
  rw [replaceHttps.eq_def]
  split
  · rename_i heq
    injection heq with hc hr
    exact ((h _ hc hr)).elim
  · rename_i heq; injection heq with h1 h2; rw [← h1, ← h2]
  · rename_i heq; simp at heq

set_option maxHeartbeats 800000 in
theorem specUrlRewrite_cons (c : Char) (rest : Str)
    (h1 : ∀ m, c = 'h' → rest = 't' :: 't' :: 'p' :: 's' :: ':' :: '/' :: '/' :: m → False)
    (h2 : ∀ m, c = 'h' → rest = 't' :: 't' :: 'p' :: ':' :: '/' :: '/' :: m → False) :
    specUrlRewrite (c :: rest) = c :: specUrlRewrite rest := by
  rw [specUrlRewrite.eq_def]
  split
  · rename_i heq
    injection heq with hc hr
    exact ((h1 _ hc hr)).elim
  · rename_i heq
    injection heq with hc hr
    exact ((h2 _ hc hr)).elim
  · rename_i heq; injection heq with ha hb; rw [← ha, ← hb]
  · rename_i heq; simp at heq

theorem hfree_prefix_of_replaceHttp (l : Str) :
    ∀ p : Str, 'h' ∉ p → p <+: replaceHttp l → p <+: l := by
  induction l using replaceHttp.induct with
  | case1 m ih =>
    intro p hp hpre
    simp only [replaceHttp] at hpre
    match p, hpre with
    | [], _ => exact List.nil_prefix
    | c :: p', ⟨t, ht⟩ =>
      injection ht with hc _
      exact absurd (hc ▸ List.mem_cons_self c p') hp
  | case2 c rest hx ih =>
    intro p hp hpre
    rw [replaceHttp_cons c rest hx] at hpre
    match p, hpre with
    | [], _ => exact List.nil_prefix
    | c' :: p', hpre =>
      rw [List.cons_prefix_cons] at hpre ⊢
      refine ⟨hpre.1, ih p' (fun hm => hp (List.mem_cons_of_mem c' hm)) hpre.2⟩
  | case3 =>
    intro p hp hpre
    exact hpre

theorem replaceChain_aux : ∀ n, ∀ l : Str, l.length ≤ n →
    replaceHttps (replaceHttp l) = specUrlRewrite l := by
  intro n
  induction n with
  | zero =>
    intro l hl
    have : l = [] := List.length_eq_zero.mp (Nat.le_zero.mp hl)
    rw [this]; rfl
  | succ n ih =>
    intro l hl
    match l with
    | [] => rfl
    | c :: rest =>
      by_cases h8 : ('h' :: 't' :: 't' :: 'p' :: 's' :: ':' :: '/' :: '/' :: []) <+: (c :: rest)
      · obtain ⟨m, hm⟩ := h8
        simp only [List.cons_append, List.nil_append] at hm
        injection hm with hc hr
        subst hc; subst hr
        have hlen : m.length ≤ n := by
          simp only [List.length_cons] at hl; omega
        simp only [replaceHttp, replaceHttps, specUrlRewrite]
        rw [ih m hlen]
      · by_cases h7 : ('h' :: 't' :: 't' :: 'p' :: ':' :: '/' :: '/' :: []) <+: (c :: rest)
        · obtain ⟨m, hm⟩ := h7
          simp only [List.cons_append, List.nil_append] at hm
          injection hm with hc hr
          subst hc; subst hr
          have hlen : m.length ≤ n := by
            simp only [List.length_cons] at hl; omega
          simp only [replaceHttp, replaceHttps, specUrlRewrite]
          rw [ih m hlen]
        · have e1 : ∀ m, c = 'h' → rest = 't' :: 't' :: 'p' :: 's' :: ':' :: '/' :: '/' :: m → False := by
            intro m hc hr
            exact h8 ⟨m, by rw [hc, hr]; rfl⟩
          have e2 : ∀ m, c = 'h' → rest = 't' :: 't' :: 'p' :: ':' :: '/' :: '/' :: m → False := by
            intro m hc hr
            exact h7 ⟨m, by rw [hc, hr]; rfl⟩
          have hlen : rest.length ≤ n := by
            simp only [List.length_cons] at hl; omega
          rw [replaceHttp_cons c rest e2, specUrlRewrite_cons c rest e1 e2]
          rw [replaceHttps_cons c (replaceHttp rest) ?hno, ih rest hlen]
          intro m hc hr
          have hpre : ('t' :: 't' :: 'p' :: 's' :: ':' :: '/' :: '/' :: []) <+: replaceHttp rest :=
            ⟨m, by rw [hr]; rfl⟩
          obtain ⟨m', hm'⟩ := hfree_prefix_of_replaceHttp rest _ (by decide) hpre
          exact e1 m' hc (by rw [← hm']; rfl)

/-! ## zset and sum lemmas for the LRU invariant -/

theorem zmembers_nil : zmembers [] = [] := rfl

theorem zmembers_cons (x : Str × Int) (l : List (Str × Int)) :
    zmembers (x :: l) = x.1 :: zmembers l := rfl

theorem zmembers_zinsertSorted_perm (e : Str × Int) (l : List (Str × Int)) :
    List.Perm (zmembers (zinsertSorted e l)) (e.1 :: zmembers l) :=
  (zinsertSorted_perm e l).map Prod.fst

theorem mem_zmembers_zremMember (k m : Str) (l : List (Str × Int)) :
    m ∈ zmembers (zremMember k l) ↔ m ∈ zmembers l ∧ m ≠ k := by
  induction l with
  | nil => simp [zremMember, zmembers]
  | cons x rest ih =>
    by_cases hx : x.1 = k
    · rw [zremMember, if_pos hx, ih, zmembers_cons, List.mem_cons]
      constructor
      · rintro ⟨hm, hne⟩
        exact ⟨Or.inr hm, hne⟩
      · rintro ⟨hm | hm, hne⟩
        · exact absurd (hm.trans hx) hne
        · exact ⟨hm, hne⟩
    · rw [zremMember, if_neg hx, zmembers_cons, zmembers_cons,
        List.mem_cons, List.mem_cons, ih]
      constructor
      · rintro (hm | ⟨hm, hne⟩)
        · exact ⟨Or.inl hm, fun hk => hx ((hm.symm.trans hk) ▸ rfl)⟩
        · exact ⟨Or.inr hm, hne⟩
      · rintro ⟨hm | hm, hne⟩
        · exact Or.inl hm
        · exact Or.inr ⟨hm, hne⟩

theorem nodup_zmembers_zremMember (k : Str) (l : List (Str × Int))
    (h : (zmembers l).Nodup) : (zmembers (zremMember k l)).Nodup := by
  induction l with
  | nil => simp [zremMember, zmembers]
  | cons x rest ih =>
    rw [zmembers_cons, List.nodup_cons] at h
    by_cases hx : x.1 = k
    · rw [zremMember, if_pos hx]
      exact ih h.2
    · rw [zremMember, if_neg hx, zmembers_cons, List.nodup_cons]
      refine ⟨fun hm => h.1 ((mem_zmembers_zremMember k x.1 rest).mp hm).1, ih h.2⟩

theorem zremMember_eq_of_notmem (k : Str) (l : List (Str × Int))
    (h : k ∉ zmembers l) : zremMember k l = l := by
  induction l with
  | nil => rfl
  | cons x rest ih =>
    rw [zmembers_cons, List.mem_cons] at h
    push_neg at h
    rw [zremMember, if_neg (fun hx => h.1 hx.symm), ih h.2]

theorem sumSizes_nil (hs : List (Str × LruCacheMetadata)) : sumSizes hs [] = 0 := rfl

theorem sumSizes_cons (hs : List (Str × LruCacheMetadata)) (x : Str × Int)
    (l : List (Str × Int)) :
    sumSizes hs (x :: l) = sizeD hs x.1 + sumSizes hs l := by
  simp [sumSizes, sizeD]

theorem sumSizes_zremMember (hs : List (Str × LruCacheMetadata)) (k : Str)
    (l : List (Str × Int)) (hnd : (zmembers l).Nodup) (hmem : k ∈ zmembers l) :
    sumSizes hs l = sizeD hs k + sumSizes hs (zremMember k l) := by
  induction l with
  | nil => simp [zmembers] at hmem
  | cons x rest ih =>
    rw [zmembers_cons, List.nodup_cons] at hnd
    rw [zmembers_cons, List.mem_cons] at hmem
    by_cases hx : x.1 = k
    · subst hx
      rw [zremMember, if_pos rfl, zremMember_eq_of_notmem _ _ hnd.1, sumSizes_cons]
    · rcases hmem with hm | hm
      · exact absurd (hm.symm) hx
      · rw [zremMember, if_neg hx, sumSizes_cons, sumSizes_cons, ih hnd.2 hm]
        omega

theorem sumSizes_alDel_of_notmem (hs : List (Str × LruCacheMetadata)) (f : Str)
    (l : List (Str × Int)) (h : f ∉ zmembers l) :
    sumSizes (alDel hs f) l = sumSizes hs l := by
  induction l with
  | nil => rfl
  | cons x rest ih =>
    rw [zmembers_cons, List.mem_cons] at h
    push_neg at h
    rw [sumSizes_cons, sumSizes_cons, ih h.2]
    congr 1
    unfold sizeD
    rw [alGet_alDel_ne hs f x.1 (fun hx => h.1 hx.symm)]

theorem sumSizes_alSet_of_notmem (hs : List (Str × LruCacheMetadata)) (k : Str)
    (v : LruCacheMetadata) (l : List (Str × Int)) (h : k ∉ zmembers l) :
    sumSizes (alSet hs k v) l = sumSizes hs l := by
  induction l with
  | nil => rfl
  | cons x rest ih =>
    rw [zmembers_cons, List.mem_cons] at h
    push_neg at h
    rw [sumSizes_cons, sumSizes_cons, ih h.2]
    congr 1
    unfold sizeD
    rw [alGet_alSet_ne hs k x.1 v (fun hx => h.1 hx.symm)]

theorem sumSizes_perm (hs : List (Str × LruCacheMetadata))
    {l l' : List (Str × Int)} (h : List.Perm l l') :
    sumSizes hs l = sumSizes hs l' :=
  List.Perm.sum_eq (h.map _)

theorem evictLoop_spec (cfg : LruCfg) (file_size : Nat) :
    ∀ (pending : List (Str × Int)) (w : World) (cur : Nat)
      (rest : List (Str × Int)) (w' : World) (ok : Bool),
    cur = getTotalSize cfg w →
    (zmembers pending).Nodup →
    (∀ m, m ∈ zmembers pending ↔ (alGet w.hashes m).isSome) →
    getTotalSize cfg w = sumSizes w.hashes pending →
    evictLoop cfg file_size pending cur w = (rest, w', ok) →
    (zmembers rest).Nodup ∧
    (∀ m, m ∈ zmembers rest ↔ (alGet w'.hashes m).isSome) ∧
    getTotalSize cfg w' = sumSizes w'.hashes rest ∧
    w'.zsets = w.zsets ∧ w'.strs = w.strs ∧
    (file_size ≤ cfg.size_limit →
      getTotalSize cfg w' + file_size ≤ cfg.size_limit) := by
  intro pending
  induction pending with
  | nil =>
    intro w cur rest w' ok hcur hnd hmem hsum hres
    rw [evictLoop] at hres
    by_cases hif : cur + file_size ≤ cfg.size_limit
    · rw [if_pos hif] at hres
      injection hres with h1 hres
      injection hres with h2 h3
      subst h1; subst h2
      exact ⟨hnd, hmem, hsum, rfl, rfl, fun _ => by omega⟩
    · rw [if_neg hif] at hres
      injection hres with h1 hres
      injection hres with h2 h3
      subst h1; subst h2
      refine ⟨hnd, hmem, hsum, rfl, rfl, fun hfs => ?_⟩
      rw [hsum, sumSizes_nil]
      omega
  | cons x restP ih =>
    intro w cur rest w' ok hcur hnd hmem hsum hres
    rw [evictLoop] at hres
    by_cases hif : cur + file_size ≤ cfg.size_limit
    · rw [if_pos hif] at hres
      injection hres with h1 hres
      injection hres with h2 h3
      subst h1; subst h2
      exact ⟨hnd, hmem, hsum, rfl, rfl, fun _ => by omega⟩
    · rw [if_neg hif] at hres
      obtain ⟨f, sc⟩ := x
      simp only at hres
      rw [zmembers_cons, List.nodup_cons] at hnd
      -- the state after one eviction iteration
      set w1 : World := { w with fs := alDel w.fs (fsPath cfg.root (fromPrefixedKey cfg.id f)) } with hw1
      set pkg : Nat := sizeD w1.hashes f with hpkg
      set w2 : World := { w1 with hashes := alDel w1.hashes f } with hw2
      set nt : Nat := getTotalSize cfg w2 - pkg with hnt
      set w3 : World := { w2 with kv := alSet w2.kv (totalSizeKey cfg.id) nt } with hw3
      have htot12 : getTotalSize cfg w2 = getTotalSize cfg w := rfl
      have htot3 : getTotalSize cfg w3 = nt := by
        simp [getTotalSize, hw3, alGet_alSet_self]
      have hfmem : f ∈ zmembers ((f, sc) :: restP) := by
        rw [zmembers_cons]; exact List.mem_cons_self _ _
      have hpkg' : pkg = sizeD w.hashes f := rfl
      have hsum' : getTotalSize cfg w = pkg + sumSizes w.hashes restP := by
        rw [hsum, sumSizes_cons, hpkg']
      have hnd' : (zmembers restP).Nodup := hnd.2
      have hmem' : ∀ m, m ∈ zmembers restP ↔ (alGet w3.hashes m).isSome := by
        intro m
        have hwh : w3.hashes = alDel w.hashes f := rfl
        rw [hwh]
        constructor
        · intro hm
          have hne : m ≠ f := fun he => hnd.1 (he ▸ hm)
          rw [alGet_alDel_ne _ _ _ hne]
          exact (hmem m).mp (by rw [zmembers_cons]; exact List.mem_cons_of_mem _ hm)
        · intro hm
          by_cases he : m = f
          · rw [he, alGet_alDel_self] at hm
            simp at hm
          · rw [alGet_alDel_ne _ _ _ he] at hm
            have := (hmem m).mpr hm
            rw [zmembers_cons, List.mem_cons] at this
            rcases this with h | h
            · exact absurd h he
            · exact h
      have hsum3 : getTotalSize cfg w3 = sumSizes w3.hashes restP := by
        have hwh : w3.hashes = alDel w.hashes f := rfl
        rw [htot3, hnt, htot12, hwh,
          sumSizes_alDel_of_notmem _ _ _ hnd.1]
        omega
      have := ih w3 nt rest w' ok htot3.symm hnd' hmem' hsum3 hres
      refine ⟨this.1, this.2.1, this.2.2.1, this.2.2.2.1, this.2.2.2.2.1,
        this.2.2.2.2.2⟩

theorem setLruCacheEntry_spec (cfg : LruCfg) (w : World) (rk : Str)
    (size : Nat) (now : Int)
    (hnd : (zmembers (zget w (entriesZlistKey cfg.id))).Nodup)
    (hmem : ∀ m, m ∈ zmembers (zget w (entriesZlistKey cfg.id)) ↔
      (alGet w.hashes m).isSome)
    (hsum : getTotalSize cfg w = sumSizes w.hashes (zget w (entriesZlistKey cfg.id))) :
    LruInv cfg (setLruCacheEntry cfg w rk size now) ∧
    getTotalSize cfg (setLruCacheEntry cfg w rk size now) + sizeD w.hashes rk
      = getTotalSize cfg w + size ∧
    alGet (setLruCacheEntry cfg w rk size now).hashes rk = some ⟨size, now⟩ := by
  set zl := zget w (entriesZlistKey cfg.id) with hzl
  set w' := setLruCacheEntry cfg w rk size now with hw'
  have hhashes : w'.hashes = alSet w.hashes rk ⟨size, now⟩ := rfl
  have hzl' : zget w' (entriesZlistKey cfg.id) = zadd zl rk now := by
    simp [hw', setLruCacheEntry, zget, alGet_alSet_self, hzl]
  have htot' : getTotalSize cfg w' = getTotalSize cfg w - sizeD w.hashes rk + size := by
    simp [hw', setLruCacheEntry, getTotalSize, alGet_alSet_self, sizeD]
  have hpermPairs : List.Perm (zadd zl rk now) ((rk, now) :: zremMember rk zl) :=
    zinsertSorted_perm (rk, now) (zremMember rk zl)
  have hperm : List.Perm (zmembers (zadd zl rk now)) (rk :: zmembers (zremMember rk zl)) :=
    zmembers_zinsertSorted_perm (rk, now) (zremMember rk zl)
  have hrknotin : rk ∉ zmembers (zremMember rk zl) := by
    intro hm
    exact ((mem_zmembers_zremMember rk rk zl).mp hm).2 rfl
  have hndrem : (zmembers (zremMember rk zl)).Nodup := nodup_zmembers_zremMember rk zl hnd
  -- the old size is bounded by the current total
  have hold : sizeD w.hashes rk ≤ getTotalSize cfg w ∧
      sumSizes w.hashes (zremMember rk zl)
        = getTotalSize cfg w - sizeD w.hashes rk := by
    by_cases hin : rk ∈ zmembers zl
    · have := sumSizes_zremMember w.hashes rk zl hnd hin
      constructor
      · omega
      · omega
    · have h0 : (alGet w.hashes rk).isSome = false := by
        rcases hh : alGet w.hashes rk with _ | v
        · rfl
        · exact absurd ((hmem rk).mpr (by rw [hh]; rfl)) hin
      have h0' : sizeD w.hashes rk = 0 := by
        unfold sizeD
        rcases hh : alGet w.hashes rk with _ | v
        · rfl
        · rw [hh] at h0; simp at h0
      rw [zremMember_eq_of_notmem rk zl hin, h0']
      omega
  refine ⟨⟨?_, ?_, ?_⟩, ?_, ?_⟩
  · -- nodup
    rw [hzl']
    exact hperm.symm.nodup (List.nodup_cons.mpr ⟨hrknotin, hndrem⟩)
  · -- membership
    intro m
    rw [hzl', hhashes]
    rw [hperm.mem_iff, List.mem_cons]
    by_cases he : m = rk
    · subst he
      simp [alGet_alSet_self]
    · rw [alGet_alSet_ne _ _ _ _ he, mem_zmembers_zremMember]
      constructor
      · rintro (h | ⟨h, _⟩)
        · exact absurd h he
        · exact (hmem m).mp h
      · intro h
        exact Or.inr ⟨(hmem m).mpr h, he⟩
  · -- sum
    rw [hzl', hhashes, htot', sumSizes_perm _ hpermPairs, sumSizes_cons,
      sumSizes_alSet_of_notmem _ _ _ _ hrknotin]
    have hsz : sizeD (alSet w.hashes rk ⟨size, now⟩) ((rk, now) : Str × Int).1 = size := by
      unfold sizeD
      rw [alGet_alSet_self]
      rfl
    rw [hsz]
    omega
  · rw [htot']
    omega
  · rw [hhashes, alGet_alSet_self]

theorem lru_put_spec (cfg : LruCfg) (now : Int) (key : Str) (d : CacheDataM)
    (w : World) (fs : Nat) (hInv : LruInv cfg w) (hlen : d.lenM = some fs) :
    ∃ w', LruRedisCache.put cfg now key d w = some w' ∧ LruInv cfg w' ∧
      (fs ≤ cfg.size_limit → getTotalSize cfg w' ≤ cfg.size_limit) ∧
      (getTotalSize cfg w + fs ≤ cfg.size_limit →
        getTotalSize cfg w' + sizeD w.hashes (toPrefixedKey cfg.id key)
          = getTotalSize cfg w + fs) ∧
      alGet w'.hashes (toPrefixedKey cfg.id key) = some ⟨fs, now⟩ := by
  obtain ⟨hnd, hmem, hsum⟩ := hInv
  rcases hres : evictLoop cfg fs (zget w (entriesZlistKey cfg.id))
    (getTotalSize cfg w) w with ⟨rest, wE, ok⟩
  have hE := evictLoop_spec cfg fs (zget w (entriesZlistKey cfg.id)) w
    (getTotalSize cfg w) rest wE ok rfl hnd hmem hsum hres
  obtain ⟨hndE, hmemE, hsumE, hzsE, hstrsE, hboundE⟩ := hE
  -- the world after writing back the zset and persisting the blob
  set w2 : World :=
    { zput wE (entriesZlistKey cfg.id) rest with
      fs := alSet (zput wE (entriesZlistKey cfg.id) rest).fs (fsPath cfg.root key)
        d.payloadBytes } with hw2
  have hzl2 : zget w2 (entriesZlistKey cfg.id) = rest := by
    simp [hw2, zput, zget, alGet_alSet_self]
  have hh2 : w2.hashes = wE.hashes := rfl
  have htot2 : getTotalSize cfg w2 = getTotalSize cfg wE := rfl
  have hndpre : (zmembers (zget w2 (entriesZlistKey cfg.id))).Nodup := by
    rw [hzl2]; exact hndE
  have hmempre : ∀ m, m ∈ zmembers (zget w2 (entriesZlistKey cfg.id)) ↔
      (alGet w2.hashes m).isSome := by
    rw [hzl2, hh2]; exact hmemE
  have hsumpre : getTotalSize cfg w2
      = sumSizes w2.hashes (zget w2 (entriesZlistKey cfg.id)) := by
    rw [hzl2, hh2, htot2]; exact hsumE
  have hS := setLruCacheEntry_spec cfg w2 (toPrefixedKey cfg.id key) fs now
    hndpre hmempre hsumpre
  refine ⟨setLruCacheEntry cfg w2 (toPrefixedKey cfg.id key) fs now, ?_, hS.1, ?_, ?_, hS.2.2⟩
  · -- put reduces to this value
    rw [LruRedisCache.put, hlen]
    simp only [hres]
  · -- the size bound
    intro hfs
    have := hS.2.1
    have hb := hboundE hfs
    omega
  · -- exact accounting when no eviction is needed
    intro hle
    have hstop : evictLoop cfg fs (zget w (entriesZlistKey cfg.id))
        (getTotalSize cfg w) w = (zget w (entriesZlistKey cfg.id), w, true) := by
      rw [evictLoop.eq_def]
      simp only [if_pos hle]
    rw [hstop] at hres
    injection hres with h1 hres
    injection hres with h2 h3
    subst h2
    have hh2w : w2.hashes = w.hashes := rfl
    have htot2w : getTotalSize cfg w2 = getTotalSize cfg w := rfl
    have := hS.2.1
    rw [hh2w, htot2w] at this
    omega

/-! ## Sequences of admissible puts (claim C1) -/

theorem LruInv_empty (cfg : LruCfg) : LruInv cfg World.empty := by
  refine ⟨?_, ?_, ?_⟩
  · simp [zget, World.empty, alGet, zmembers]
  · intro m
    simp [zget, World.empty, alGet, zmembers]
  · rfl

theorem sizeOkB_spec (cfg : LruCfg) (d : CacheDataM) (h : sizeOkB cfg d = true) :
    ∃ n, d.lenM = some n ∧ n ≤ cfg.size_limit := by
  unfold sizeOkB at h
  rcases hl : d.lenM with _ | n
  · rw [hl] at h; exact absurd h (by simp)
  · rw [hl] at h
    exact ⟨n, rfl, by simpa using h⟩

theorem runPuts_inv (cfg : LruCfg) :
    ∀ (ops : List (Int × Str × CacheDataM)) (w : World), LruInv cfg w →
    (∀ e ∈ ops, sizeOkB cfg e.2.2 = true) →
    ∃ w', runPuts cfg ops w = some w' ∧ LruInv cfg w' ∧
      (getTotalSize cfg w ≤ cfg.size_limit →
        getTotalSize cfg w' ≤ cfg.size_limit) := by
  intro ops
  induction ops with
  | nil =>
    intro w hInv _
    exact ⟨w, rfl, hInv, fun h => h⟩
  | cons e ops ih =>
    intro w hInv hops
    obtain ⟨now, key, d⟩ := e
    obtain ⟨fs, hlen, hfs⟩ := sizeOkB_spec cfg d (hops _ (List.mem_cons_self _ _))
    obtain ⟨w1, hput, hInv1, hbound1, _, _⟩ :=
      lru_put_spec cfg now key d w fs hInv hlen
    obtain ⟨w', hrun, hInv', hbound'⟩ :=
      ih w1 hInv1 (fun e he => hops e (List.mem_cons_of_mem _ he))
    refine ⟨w', ?_, hInv', fun _ => hbound' (hbound1 hfs)⟩
    rw [runPuts, hput]
    exact hrun

/-! ## Blob-store isolation lemmas (claim C6) -/

theorem alGet_alDel_none {α β : Type} [DecidableEq α]
    (l : List (α × β)) (x y : α) (h : alGet l y = none) :
    alGet (alDel l x) y = none := by
  by_cases he : y = x
  · rw [he, alGet_alDel_self]
  · rw [alGet_alDel_ne l x y he]
    exact h

theorem fsPath_inj_file (root x y : Str) (h : fsPath root x = fsPath root y) :
    x = y := by
  have := List.append_cancel_left h
  injection this

/-- Paths under two root directories are disjoint when the roots are
distinct and neither is nested under the other (neither root extended by
`/` is a prefix of the other root). -/
theorem fsPath_ne : ∀ (ra rb : Str), ra ≠ rb →
    ¬ (ra ++ ['/'] <+: rb) → ¬ (rb ++ ['/'] <+: ra) →
    ∀ x y : Str, fsPath ra x ≠ fsPath rb y := by
  intro ra
  induction ra with
  | nil =>
    intro rb h1 h2 h3 x y heq
    cases rb with
    | nil => exact h1 rfl
    | cons c rb' =>
      injection heq with hc hrest
      exact h2 ⟨rb', by rw [← hc]; rfl⟩
  | cons a ra' ih =>
    intro rb h1 h2 h3 x y heq
    cases rb with
    | nil =>
      injection heq with hc hrest
      exact h3 ⟨ra', by rw [hc]; rfl⟩
    | cons b rb' =>
      injection heq with hab heq'
      refine ih rb' ?_ ?_ ?_ x y heq'
      · intro he
        exact h1 (by rw [hab, he])
      · rintro ⟨t, ht⟩
        exact h2 ⟨t, by rw [hab, List.cons_append, List.cons_append, ht]⟩
      · rintro ⟨t, ht⟩
        exact h3 ⟨t, by rw [← hab, List.cons_append, List.cons_append, ht]⟩

theorem evictLoop_fs_none (cfg : LruCfg) (fsz : Nat) :
    ∀ (pending : List (Str × Int)) (cur : Nat) (w : World)
      (rest : List (Str × Int)) (w' : World) (ok : Bool)
      (y : Str),
    evictLoop cfg fsz pending cur w = (rest, w', ok) →
    alGet w.fs y = none → alGet w'.fs y = none := by
  intro pending
  induction pending with
  | nil =>
    intro cur w rest w' ok y hres h
    rw [evictLoop] at hres
    by_cases hif : cur + fsz ≤ cfg.size_limit
    · rw [if_pos hif] at hres
      injection hres with h1 hres
      injection hres with h2 h3
      subst h2
      exact h
    · rw [if_neg hif] at hres
      injection hres with h1 hres
      injection hres with h2 h3
      subst h2
      exact h
  | cons x restP ih =>
    intro cur w rest w' ok y hres h
    rw [evictLoop] at hres
    by_cases hif : cur + fsz ≤ cfg.size_limit
    · rw [if_pos hif] at hres
      injection hres with h1 hres
      injection hres with h2 h3
      subst h2
      exact h
    · rw [if_neg hif] at hres
      obtain ⟨f, sc⟩ := x
      simp only at hres
      exact ih _ _ _ _ _ _ hres (alGet_alDel_none _ _ _ h)

theorem lru_put_fs_none (cfg : LruCfg) (now : Int) (key : Str) (d : CacheDataM)
    (w w' : World) (y : Str) (hput : LruRedisCache.put cfg now key d w = some w')
    (h : alGet w.fs y = none) (hy : y ≠ fsPath cfg.root key) :
    alGet w'.fs y = none := by
  rw [LruRedisCache.put] at hput
  rcases hl : d.lenM with _ | fsz
  · rw [hl] at hput; exact absurd hput (by simp)
  · rw [hl] at hput
    simp only at hput
    rcases hres : evictLoop cfg fsz (zget w (entriesZlistKey cfg.id))
      (getTotalSize cfg w) w with ⟨rest, wE, ok⟩
    rw [hres] at hput
    injection hput with hput
    have hE := evictLoop_fs_none cfg fsz _ _ _ _ _ _ y hres h
    rw [← hput]
    show alGet (alSet _ (fsPath cfg.root key) d.payloadBytes) y = none
    rw [alGet_alSet_ne _ _ _ _ hy]
    exact hE

theorem ttl_put_fs_none (cfg : TtlCfg) (key : Str) (d : CacheDataM)
    (w : World) (y : Str) (h : alGet w.fs y = none)
    (hy : y ≠ fsPath cfg.root key) :
    alGet (TtlRedisCache.put cfg key d w).fs y = none := by
  show alGet (alSet w.fs (fsPath cfg.root key) d.payloadBytes) y = none
  rw [alGet_alSet_ne _ _ _ _ hy]
  exact h

theorem lru_get_fs_eq (cfg : LruCfg) (now : Int) (key : Str) (w : World) :
    (LruRedisCache.get cfg now key w).2.fs = w.fs := by
  rw [LruRedisCache.get]
  rcases h : alGet w.hashes (toPrefixedKey cfg.id key) with _ | meta
  · rfl
  · simp only
    rw [LruRedisCache.updateCacheEntryAtime, h]
    rcases alGet (({ w with
      hashes := alSet w.hashes (toPrefixedKey cfg.id key) ⟨meta.size, now⟩,
      zsets := alSet w.zsets (entriesZlistKey cfg.id)
        (zadd (zget w (entriesZlistKey cfg.id)) (toPrefixedKey cfg.id key) now) } : World).fs)
      (fsPath cfg.root key) with _ | data
    · rfl
    · rfl

theorem inst_get_fs_eq (i : Inst) (now : Int) (key : Str) (w : World) :
    (i.get now key w).2.fs = w.fs := by
  cases i with
  | lru cfg => exact lru_get_fs_eq cfg now key w
  | ttl cfg => rfl

theorem inst_get_none (i : Inst) (now : Int) (k : Str) (w : World)
    (h : alGet w.fs (fsPath i.root k) = none) : (i.get now k w).1 = none := by
  cases i with
  | lru cfg =>
    rw [Inst.get, LruRedisCache.get]
    rcases hh : alGet w.hashes (toPrefixedKey cfg.id k) with _ | meta
    · rfl
    · simp only
      have hfs : (LruRedisCache.updateCacheEntryAtime cfg w
          (toPrefixedKey cfg.id k) now).fs = w.fs := by
        rw [LruRedisCache.updateCacheEntryAtime, hh]
      rw [hfs]
      have : alGet w.fs (fsPath cfg.root k) = none := h
      rw [this]
  | ttl cfg =>
    rw [Inst.get, TtlRedisCache.get]
    by_cases hm : ttlToRedisKey cfg.id k ∈ w.strs
    · simp only [if_pos hm]
      exact h
    · simp only [if_neg hm]

theorem runOps_fs_inv (a b : Inst) (hroot : a.root ≠ b.root)
    (hnest1 : ¬ (a.root ++ ['/'] <+: b.root))
    (hnest2 : ¬ (b.root ++ ['/'] <+: a.root)) (k : Str) :
    ∀ (ops : List CacheOp) (w w' : World),
    alGet w.fs (fsPath a.root k) = none → putsAKey k ops = false →
    runOps a b ops w = some w' → alGet w'.fs (fsPath a.root k) = none := by
  intro ops
  induction ops with
  | nil =>
    intro w w' h hk hrun
    injection hrun with hrun
    rw [← hrun]
    exact h
  | cons op ops ih =>
    intro w w' h hk hrun
    cases op with
    | putA now key d =>
      simp only [putsAKey, Bool.or_eq_false_iff, decide_eq_false_iff_not] at hk
      have hkey : key ≠ k := hk.1
      rw [runOps] at hrun
      rcases hput : Inst.put a now key d w with _ | w1
      · rw [hput] at hrun; exact absurd hrun (by simp)
      · rw [hput] at hrun
        simp only at hrun
        have hne : fsPath a.root k ≠ fsPath a.root key :=
          fun he => hkey (fsPath_inj_file a.root k key he).symm
        have h1 : alGet w1.fs (fsPath a.root k) = none := by
          cases a with
          | lru cfg =>
            exact lru_put_fs_none cfg now key d w w1 _ hput h hne
          | ttl cfg =>
            rw [Inst.put] at hput
            injection hput with hput
            rw [← hput]
            exact ttl_put_fs_none cfg key d w _ h hne
        exact ih w1 w' h1 hk.2 hrun
    | getA now key =>
      simp only [putsAKey, Bool.false_or] at hk
      rw [runOps] at hrun
      have hfs : alGet (a.get now key w).2.fs (fsPath a.root k) = none := by
        rw [inst_get_fs_eq]
        exact h
      exact ih _ w' hfs hk hrun
    | putB now key d =>
      simp only [putsAKey, Bool.false_or] at hk
      rw [runOps] at hrun
      rcases hput : Inst.put b now key d w with _ | w1
      · rw [hput] at hrun; exact absurd hrun (by simp)
      · rw [hput] at hrun
        simp only at hrun
        have hne : fsPath a.root k ≠ fsPath b.root key :=
          fsPath_ne a.root b.root hroot hnest1 hnest2 k key
        have h1 : alGet w1.fs (fsPath a.root k) = none := by
          cases b with
          | lru cfg =>
            exact lru_put_fs_none cfg now key d w w1 _ hput h hne
          | ttl cfg =>
            rw [Inst.put] at hput
            injection hput with hput
            rw [← hput]
            exact ttl_put_fs_none cfg key d w _ h hne
        exact ih w1 w' h1 hk hrun
    | getB now key =>
      simp only [putsAKey, Bool.false_or] at hk
      rw [runOps] at hrun
      have hfs : alGet (b.get now key w).2.fs (fsPath a.root k) = none := by
        rw [inst_get_fs_eq]
        exact h
      exact ih _ w' hfs hk hrun
    | reapA file =>
      simp only [putsAKey, Bool.false_or] at hk
      rw [runOps] at hrun
      exact ih _ w' (alGet_alDel_none _ _ _ h) hk hrun
    | reapB file =>
      simp only [putsAKey, Bool.false_or] at hk
      rw [runOps] at hrun
      exact ih _ w' (alGet_alDel_none _ _ _ h) hk hrun

/-! ## Atomic-spawn invariant (claim C8) -/

theorem tmAtomic_inv : ∀ (evs : List TMAtomicEv) (s : Bool × Nat),
    (s.2 ≤ if s.1 then 1 else 0) →
    ((evs.foldl tmAtomicStep s).2 ≤ if (evs.foldl tmAtomicStep s).1 then 1 else 0) := by
  intro evs
  induction evs with
  | nil => intro s hs; exact hs
  | cons e evs ih =>
    intro s hs
    rw [List.foldl_cons]
    apply ih
    cases e with
    | spawn =>
      rw [tmAtomicStep]
      rcases s with ⟨fl, n⟩
      cases fl with
      | true => simpa using hs
      | false =>
        simp at hs
        simp [hs]
    | complete =>
      rw [tmAtomicStep]
      rcases s with ⟨fl, n⟩
      by_cases hn : n > 0
      · simp only [if_pos hn]
        cases fl with
        | true => simp at hs ⊢; omega
        | false => simp at hs ⊢; omega
      · simp only [if_neg hn]
        exact hs

/-! ## Prefix-key roundtrip (claim C10) -/

theorem drop_length_append (id : Str) (c : Char) (k : Str) :
    (id ++ c :: k).drop (id.length + 1) = k := by
  induction id with
  | nil => rfl
  | cons x id ih =>
    simp only [List.cons_append, List.length_cons, List.drop_succ_cons]
    exact ih

/-- C9: for every Task value, the derived cache key is deterministic and
matches the spec's description: `pypi_index_<name>`, `<pkg_path>`,
`anaconda_<path>`, or the URL with every `http://` replaced by `http/` and
every `https://` replaced by `https/`. -/
theorem task_to_key_matches_spec (t : TaskM) : t.to_key = specTaskKey t := by
  cases t with
  | PypiIndexTask pkg_name => rfl
  | PypiPackagesTask pkg_path => rfl
  | AnacondaTask path => rfl
  | Others rule_id url => exact replaceChain_aux url.length url (Nat.le_refl _)

/-- C10: stripping the instance prefix inverts prefixing, for the LRU
policy's `from_prefixed_key`/`to_prefixed_key` pair and the TTL policy's
`from_redis_key`/`to_redis_key` pair. -/
theorem prefix_roundtrip (id k : Str) :
    fromPrefixedKey id (toPrefixedKey id k) = k ∧
    ttlFromRedisKey id (ttlToRedisKey id k) = k := by
  constructor
  · exact drop_length_append id '_' k
  · exact drop_length_append id '/' k


/-- C6 (amended): two cache instances with distinct ids and disjoint blob
root directories (distinct, and neither nested under the other: neither
root extended by `/` is a prefix of the other root) sharing one metadata
store never observe each other's entries: a get on instance A for a key
that was put only into instance B returns None, at any point of any
interleaving of puts, gets and reaper deletions. -/
theorem instance_isolation (a b : Inst) (hroot : a.root ≠ b.root)
    (hnest1 : ¬ (a.root ++ ['/'] <+: b.root))
    (hnest2 : ¬ (b.root ++ ['/'] <+: a.root))
    (hid : a.id ≠ b.id) (ops : List CacheOp) (k : Str) (now : Int)
    (hk : putsAKey k ops = false)
    (hsome : (runOps a b ops World.empty).isSome = true) :
    (Inst.get a now k (runOpsD a b ops World.empty)).1 = none := by
  rcases hr : runOps a b ops World.empty with _ | w'
  · rw [hr] at hsome
    exact absurd hsome (by simp)
  · have hfs : alGet w'.fs (fsPath a.root k) = none :=
      runOps_fs_inv a b hroot hnest1 hnest2 k ops World.empty w' rfl hk hr
    have hD : runOpsD a b ops World.empty = w' := by
      rw [runOpsD, hr]
      rfl
    rw [hD]
    exact inst_get_none a now k w' hfs

/-- C6 witness: instance A (id `A`, root `1`) and instance B (id `B`,
root `2`) have distinct, non-nested roots and share the metadata store;
after B puts key `x`, a get on A for `x` returns None. -/
theorem instance_isolation_witness :
    ((Inst.lru ⟨['A'], 3, ['1']⟩).root ≠ (Inst.lru ⟨['B'], 3, ['2']⟩).root) ∧
    ¬ ((Inst.lru ⟨['A'], 3, ['1']⟩).root ++ ['/'] <+: (Inst.lru ⟨['B'], 3, ['2']⟩).root) ∧
    ¬ ((Inst.lru ⟨['B'], 3, ['2']⟩).root ++ ['/'] <+: (Inst.lru ⟨['A'], 3, ['1']⟩).root) ∧
    ((Inst.lru ⟨['A'], 3, ['1']⟩).id ≠ (Inst.lru ⟨['B'], 3, ['2']⟩).id) ∧
    putsAKey ['x'] [CacheOp.putB 0 ['x'] (.BytesData [2])] = false ∧
    (runOps (.lru ⟨['A'], 3, ['1']⟩) (.lru ⟨['B'], 3, ['2']⟩)
      [CacheOp.putB 0 ['x'] (.BytesData [2])] World.empty).isSome = true ∧
    (Inst.get (.lru ⟨['A'], 3, ['1']⟩) 1 ['x']
      (runOpsD (.lru ⟨['A'], 3, ['1']⟩) (.lru ⟨['B'], 3, ['2']⟩)
        [CacheOp.putB 0 ['x'] (.BytesData [2])] World.empty)).1 = none :=
  ⟨by decide, by decide, by decide, by decide, by decide, by decide,
    instance_isolation (.lru ⟨['A'], 3, ['1']⟩) (.lru ⟨['B'], 3, ['2']⟩)
      (by decide) (by decide) (by decide) (by decide)
      [CacheOp.putB 0 ['x'] (.BytesData [2])] ['x'] 1
      (by decide) (by decide)⟩

/-- C6 counterexample: the claim as stated (distinct ids alone suffice)
fails when the two instances share one blob root directory: with ids `i`
and `i_j` and a common root, after B puts keys `j_k` and `k`, a get on A
for `j_k` - a key never put into A - returns B's payload, because A's
prefixed key `i` + `_` + `j_k` collides with B's prefixed key
`i_j` + `_` + `k`. -/
theorem instance_isolation_counterexample :
    ((Inst.lru ⟨['i'], 9, ['r']⟩).id ≠ (Inst.lru ⟨['i', '_', 'j'], 9, ['r']⟩).id) ∧
    putsAKey ['j', '_', 'k']
      [CacheOp.putB 0 ['j', '_', 'k'] (.BytesData [7]),
       CacheOp.putB 1 ['k'] (.BytesData [8])] = false ∧
    (Inst.get (.lru ⟨['i'], 9, ['r']⟩) 2 ['j', '_', 'k']
      (runOpsD (.lru ⟨['i'], 9, ['r']⟩) (.lru ⟨['i', '_', 'j'], 9, ['r']⟩)
        [CacheOp.putB 0 ['j', '_', 'k'] (.BytesData [7]),
         CacheOp.putB 1 ['k'] (.BytesData [8])] World.empty)).1 = some [7] := by
  refine ⟨by decide, by decide, ?_⟩
  decide

/-- C1 (amended): for every sequence of puts to an LRU-bounded cache
instance whose payloads all have a known length not exceeding the size
limit L, after each put returns (i.e. after every prefix of the sequence)
the instance's total_size is at most L. -/
theorem lru_size_bound (cfg : LruCfg) (ops p : List (Int × Str × CacheDataM))
    (hops : ops.all (fun e => sizeOkB cfg e.2.2) = true)
    (hp : p <+: ops) :
    (runPuts cfg p World.empty).isSome = true ∧
    getTotalSize cfg (runPutsD cfg p World.empty) ≤ cfg.size_limit := by
  have hall : ∀ e ∈ p, sizeOkB cfg e.2.2 = true := by
    intro e he
    exact List.all_eq_true.mp hops e (hp.sublist.subset he)
  obtain ⟨w', hrun, _, hbound⟩ :=
    runPuts_inv cfg p World.empty (LruInv_empty cfg) hall
  constructor
  · rw [hrun]; rfl
  · rw [runPutsD, hrun]
    exact hbound (Nat.zero_le _)

/-- C1 witness: limit 3; puts of sizes 1, 2 and 3 (the third evicts both
earlier entries); every prefix ends with total_size at most 3. -/
theorem lru_size_bound_witness :
    ([((0 : Int), ['a'], CacheDataM.BytesData [1]),
      (1, ['b'], .BytesData [2, 2]),
      (2, ['c'], .BytesData [3, 3, 3])].all
      (fun e => sizeOkB ⟨['c'], 3, ['r']⟩ e.2.2) = true) ∧
    (runPuts ⟨['c'], 3, ['r']⟩
      [((0 : Int), ['a'], CacheDataM.BytesData [1]),
       (1, ['b'], .BytesData [2, 2]),
       (2, ['c'], .BytesData [3, 3, 3])] World.empty).isSome = true ∧
    getTotalSize ⟨['c'], 3, ['r']⟩ (runPutsD ⟨['c'], 3, ['r']⟩
      [((0 : Int), ['a'], CacheDataM.BytesData [1]),
       (1, ['b'], .BytesData [2, 2]),
       (2, ['c'], .BytesData [3, 3, 3])] World.empty) ≤ 3 :=
  ⟨by decide,
    (lru_size_bound ⟨['c'], 3, ['r']⟩ _ _ (by decide) (List.prefix_refl _)).1,
    (lru_size_bound ⟨['c'], 3, ['r']⟩ _ _ (by decide) (List.prefix_refl _)).2⟩

/-- C1 counterexample: the claim as stated fails for a put whose payload
exceeds the limit: with limit 3, a single put of a 4-byte payload returns
normally and leaves total_size = 4 > 3 (the source only logs the oversize
condition, evicts everything, ignores the aborted transaction and stores
the entry anyway). -/
theorem lru_size_bound_counterexample :
    (runPuts ⟨['x'], 3, ['r']⟩ [((0 : Int), ['k'], CacheDataM.BytesData [0, 0, 0, 0])]
      World.empty).isSome = true ∧
    getTotalSize ⟨['x'], 3, ['r']⟩ (runPutsD ⟨['x'], 3, ['r']⟩
      [((0 : Int), ['k'], CacheDataM.BytesData [0, 0, 0, 0])] World.empty) = 4 ∧
    (⟨['x'], 3, ['r']⟩ : LruCfg).size_limit <
      getTotalSize ⟨['x'], 3, ['r']⟩ (runPutsD ⟨['x'], 3, ['r']⟩
        [((0 : Int), ['k'], CacheDataM.BytesData [0, 0, 0, 0])] World.empty) := by
  refine ⟨by decide, ?_, ?_⟩ <;> decide

/-- C2 (code bug shown at the failing input): with limit 3, after an
admitted put of a 2-byte entry `a`, an oversize 4-byte put of `b` does NOT
skip: it destroys the existing entry `a` (hash and blob both gone), stores
`b`'s blob and metadata, and leaves total_size = 4.  The source logs
"exceeds the limit" but never returns early (src/cache.rs lines 170-175). -/
theorem oversize_put_not_skipped :
    alGet (runPutsD ⟨['j'], 3, ['r']⟩
      [((0 : Int), ['a'], CacheDataM.BytesData [1, 1]),
       (1, ['b'], .BytesData [2, 2, 2, 2])] World.empty).hashes
      (toPrefixedKey ['j'] ['a']) = none ∧
    alGet (runPutsD ⟨['j'], 3, ['r']⟩
      [((0 : Int), ['a'], CacheDataM.BytesData [1, 1]),
       (1, ['b'], .BytesData [2, 2, 2, 2])] World.empty).fs
      (fsPath ['r'] ['a']) = none ∧
    alGet (runPutsD ⟨['j'], 3, ['r']⟩
      [((0 : Int), ['a'], CacheDataM.BytesData [1, 1]),
       (1, ['b'], .BytesData [2, 2, 2, 2])] World.empty).fs
      (fsPath ['r'] ['b']) = some [2, 2, 2, 2] ∧
    getTotalSize ⟨['j'], 3, ['r']⟩ (runPutsD ⟨['j'], 3, ['r']⟩
      [((0 : Int), ['a'], CacheDataM.BytesData [1, 1]),
       (1, ['b'], .BytesData [2, 2, 2, 2])] World.empty) = 4 := by
  refine ⟨?_, ?_, ?_, ?_⟩ <;> decide

/-- C3 (code bug shown at the failing input): with limit 3 and an empty
metadata index, a put of a 4-byte payload makes the eviction transaction
closure return Err ("cache metadata inconsistent", the `false` flag), yet
the put is NOT abandoned: the result is ignored (`let _tx_result`), the
blob is written, the metadata entry is inserted, and the caller sees a
normal void return. -/
theorem inconsistent_abort_not_abandoned :
    evictLoop ⟨['i'], 3, ['r']⟩ 4 [] 0 World.empty = ([], World.empty, false) ∧
    (runPuts ⟨['i'], 3, ['r']⟩ [((0 : Int), ['k'], CacheDataM.BytesData [5, 5, 5, 5])]
      World.empty).isSome = true ∧
    alGet (runPutsD ⟨['i'], 3, ['r']⟩
      [((0 : Int), ['k'], CacheDataM.BytesData [5, 5, 5, 5])] World.empty).fs
      (fsPath ['r'] ['k']) = some [5, 5, 5, 5] ∧
    (alGet (runPutsD ⟨['i'], 3, ['r']⟩
      [((0 : Int), ['k'], CacheDataM.BytesData [5, 5, 5, 5])] World.empty).hashes
      (toPrefixedKey ['i'] ['k'])).isSome = true := by
  refine ⟨?_, ?_, ?_, ?_⟩ <;> decide

/-- C4 (amended): overwriting a put that does not trigger eviction
(current total + new size within the limit) adjusts total_size by exactly
new size minus old size: the old entry's size is subtracted and the new
size added. -/
theorem reput_size_accounting (cfg : LruCfg) (t1 t2 : Int) (k : Str)
    (v1 v2 : CacheDataM) (s1 s2 : Nat) (w : World)
    (hInv : LruInv cfg w) (h1 : v1.lenM = some s1) (h2 : v2.lenM = some s2)
    (hle : getTotalSize cfg (putD cfg t1 k v1 w) + s2 ≤ cfg.size_limit) :
    getTotalSize cfg (putD cfg t2 k v2 (putD cfg t1 k v1 w)) + s1
      = getTotalSize cfg (putD cfg t1 k v1 w) + s2 := by
  obtain ⟨w1, hput1, hInv1, _, _, hhash1⟩ := lru_put_spec cfg t1 k v1 w s1 hInv h1
  have hD1 : putD cfg t1 k v1 w = w1 := by rw [putD, hput1]; rfl
  rw [hD1] at hle ⊢
  obtain ⟨w2, hput2, _, _, hacct, _⟩ := lru_put_spec cfg t2 k v2 w1 s2 hInv1 h2
  have hD2 : putD cfg t2 k v2 w1 = w2 := by rw [putD, hput2]; rfl
  rw [hD2]
  have hsz : sizeD w1.hashes (toPrefixedKey cfg.id k) = s1 := by
    rw [sizeD, hhash1]
    rfl
  have := hacct hle
  rw [hsz] at this
  exact this

/-- C4 witness (spec scenario S4): limit 3, put k = one byte gives
total_size 1, re-put k = two bytes gives total_size 2. -/
theorem reput_size_accounting_witness :
    CacheDataM.lenM (.BytesData [0]) = some 1 ∧
    CacheDataM.lenM (.BytesData [0, 1]) = some 2 ∧
    getTotalSize ⟨['p'], 3, ['r']⟩ (putD ⟨['p'], 3, ['r']⟩ 0 ['k'] (.BytesData [0])
      World.empty) + 2 ≤ 3 ∧
    getTotalSize ⟨['p'], 3, ['r']⟩ (putD ⟨['p'], 3, ['r']⟩ 1 ['k'] (.BytesData [0, 1])
      (putD ⟨['p'], 3, ['r']⟩ 0 ['k'] (.BytesData [0]) World.empty)) + 1
      = getTotalSize ⟨['p'], 3, ['r']⟩ (putD ⟨['p'], 3, ['r']⟩ 0 ['k'] (.BytesData [0])
        World.empty) + 2 :=
  ⟨rfl, rfl, by decide,
    reput_size_accounting ⟨['p'], 3, ['r']⟩ 0 1 ['k'] (.BytesData [0])
      (.BytesData [0, 1]) 1 2 World.empty (LruInv_empty _) rfl rfl (by decide)⟩

set_option maxHeartbeats 1000000 in
/-- C4 counterexample: the claim as stated fails when the overwrite itself
triggers eviction of another entry: with limit 3, after put a = 1 byte and
put k = 1 byte the total is 2; the overwrite put k = 3 bytes evicts both a
and the old k and ends at total_size 3, an increase of 1, while the claim
predicts an increase of exactly 3 - 1 = 2.  The intermediate and final
worlds are spelled out literally. -/
theorem reput_size_accounting_counterexample :
    runPuts ⟨['p'], 3, ['r']⟩
      [((0 : Int), ['a'], CacheDataM.BytesData [9]),
       (1, ['k'], .BytesData [8])] World.empty = some
      ⟨[(['p', '_', 't', 'o', 't', 'a', 'l', '_', 's', 'i', 'z', 'e'], 2)],
       [(['p', '_', 'k'], ⟨1, 1⟩), (['p', '_', 'a'], ⟨1, 0⟩)],
       [(['p', '_', 'c', 'a', 'c', 'h', 'e', '_', 'k', 'e', 'y', 's'],
         [(['p', '_', 'a'], 0), (['p', '_', 'k'], 1)])],
       [],
       [(['r', '/', 'k'], [8]), (['r', '/', 'a'], [9])]⟩ ∧
    LruRedisCache.put ⟨['p'], 3, ['r']⟩ 2 ['k'] (.BytesData [7, 7, 7])
      ⟨[(['p', '_', 't', 'o', 't', 'a', 'l', '_', 's', 'i', 'z', 'e'], 2)],
       [(['p', '_', 'k'], ⟨1, 1⟩), (['p', '_', 'a'], ⟨1, 0⟩)],
       [(['p', '_', 'c', 'a', 'c', 'h', 'e', '_', 'k', 'e', 'y', 's'],
         [(['p', '_', 'a'], 0), (['p', '_', 'k'], 1)])],
       [],
       [(['r', '/', 'k'], [8]), (['r', '/', 'a'], [9])]⟩ = some
      ⟨[(['p', '_', 't', 'o', 't', 'a', 'l', '_', 's', 'i', 'z', 'e'], 3)],
       [(['p', '_', 'k'], ⟨3, 2⟩)],
       [(['p', '_', 'c', 'a', 'c', 'h', 'e', '_', 'k', 'e', 'y', 's'],
         [(['p', '_', 'k'], 2)])],
       [],
       [(['r', '/', 'k'], [7, 7, 7])]⟩ ∧
    getTotalSize ⟨['p'], 3, ['r']⟩
      ⟨[(['p', '_', 't', 'o', 't', 'a', 'l', '_', 's', 'i', 'z', 'e'], 2)],
       [(['p', '_', 'k'], ⟨1, 1⟩), (['p', '_', 'a'], ⟨1, 0⟩)],
       [(['p', '_', 'c', 'a', 'c', 'h', 'e', '_', 'k', 'e', 'y', 's'],
         [(['p', '_', 'a'], 0), (['p', '_', 'k'], 1)])],
       [],
       [(['r', '/', 'k'], [8]), (['r', '/', 'a'], [9])]⟩ = 2 ∧
    getTotalSize ⟨['p'], 3, ['r']⟩
      ⟨[(['p', '_', 't', 'o', 't', 'a', 'l', '_', 's', 'i', 'z', 'e'], 3)],
       [(['p', '_', 'k'], ⟨3, 2⟩)],
       [(['p', '_', 'c', 'a', 'c', 'h', 'e', '_', 'k', 'e', 'y', 's'],
         [(['p', '_', 'k'], 2)])],
       [],
       [(['r', '/', 'k'], [7, 7, 7])]⟩ = 3 ∧
    (3 : Nat) + 1 < 2 + 3 := by
  refine ⟨?_, ?_, rfl, rfl, by decide⟩
  · decide
  · decide

/-- C5 (amended): once a metadata-store connection is obtained, the handled
fault paths degrade to a miss rather than throwing: a TTL put returns
normally even when `models::set` and `models::expire` fail; a TTL get
returns normally (and returns None on a `models::get` error); an LRU get
returns normally whenever `models::get_cache_entry` itself succeeds, with
atime-update faults tolerated, a missing entry giving None, a blob read
fault giving None, and a successful blob read giving the data.  (A
connection failure, or an LRU metadata-entry read error, panics instead -
see the counterexample.) -/
theorem cache_faults_degrade_to_miss (env : FaultEnv) (hconn : env.connOk = true) :
    ttlPutFaults env = some () ∧
    (ttlGetFaults env).isSome = true ∧
    (env.strGet = Except.error () → ttlGetFaults env = some none) ∧
    (env.entryRead = Except.ok none → lruGetFaults env = some none) ∧
    (∀ meta, env.entryRead = Except.ok (some meta) →
      env.blobRead = Except.error () → lruGetFaults env = some none) ∧
    (∀ meta bs, env.entryRead = Except.ok (some meta) →
      env.blobRead = Except.ok bs → lruGetFaults env = some (some bs)) := by
  refine ⟨?_, ?_, ?_, ?_, ?_, ?_⟩
  · rw [ttlPutFaults, hconn]
    rfl
  · rw [ttlGetFaults, hconn]
    rcases hs : env.strGet with e | r
    · rfl
    · rcases r with _ | u
      · rfl
      · rcases hb : env.blobRead with e | d
        · rfl
        · rfl
  · intro hs
    rw [ttlGetFaults, hconn, hs]
    rfl
  · intro he
    rw [lruGetFaults, hconn, he]
    rfl
  · intro meta he hb
    rw [lruGetFaults, hconn, he, hb]
    rfl
  · intro meta bs he hb
    rw [lruGetFaults, hconn, he, hb]
    rfl

/-- C5 witness: with a connection but failing `models::set`,
`models::expire`, `models::update_cache_entry_atime`, `models::get` and
`storage.read`, the TTL put returns normally, the TTL get returns None, and
the LRU get (whose entry read succeeded) returns None. -/
theorem cache_faults_degrade_to_miss_witness :
    ttlPutFaults ⟨true, Except.ok (some ⟨1, 0⟩), Except.error (), Except.error (),
      Except.error (), Except.error (), Except.error ()⟩ = some () ∧
    ttlGetFaults ⟨true, Except.ok (some ⟨1, 0⟩), Except.error (), Except.error (),
      Except.error (), Except.error (), Except.error ()⟩ = some none ∧
    lruGetFaults ⟨true, Except.ok (some ⟨1, 0⟩), Except.error (), Except.error (),
      Except.error (), Except.error (), Except.error ()⟩ = some none :=
  ⟨(cache_faults_degrade_to_miss _ rfl).1,
   (cache_faults_degrade_to_miss _ rfl).2.2.1 rfl,
   (cache_faults_degrade_to_miss ⟨true, Except.ok (some ⟨1, 0⟩), Except.error (),
      Except.error (), Except.error (), Except.error (), Except.error ()⟩
      rfl).2.2.2.2.1 ⟨1, 0⟩ rfl rfl⟩

/-- C5 counterexample: the claim as stated fails on a metadata-store
connection failure: `models::get_sync_con(..).unwrap()` panics, so neither
TTL put nor LRU get returns normally; likewise an LRU get whose
`models::get_cache_entry` read fails panics on `.unwrap()` instead of
returning None. -/
theorem cache_faults_counterexample :
    ttlPutFaults ⟨false, Except.ok none, Except.ok (), Except.ok [],
      Except.ok (), Except.ok (), Except.ok none⟩ = none ∧
    lruGetFaults ⟨false, Except.ok none, Except.ok (), Except.ok [],
      Except.ok (), Except.ok (), Except.ok none⟩ = none ∧
    lruGetFaults ⟨true, Except.error (), Except.ok (), Except.ok [],
      Except.ok (), Except.ok (), Except.ok none⟩ = none := by
  refine ⟨rfl, rfl, rfl⟩

/-- C7 (code bug shown at the failing input): `CacheData::len` of a stream
payload with no known length is `size.unwrap()`, a panic, and an LRU put of
such a payload panics before storing anything instead of treating the entry
as do-not-cache and returning normally (the background refill in
src/task.rs lines 243-250 builds exactly such a stream when Content-Length
is absent). -/
theorem stream_without_length_panics :
    CacheDataM.lenM (.ByteStream [[1, 1, 4]] none) = none ∧
    LruRedisCache.put ⟨['s'], 3, ['r']⟩ 0 ['k'] (.ByteStream [[1, 1, 4]] none)
      World.empty = none :=
  ⟨rfl, rfl⟩

/-- C8 (amended): when each spawn's membership check and insertion run
back to back (an atomic check-and-insert, e.g. because no other spawn of
the same task interleaves between the two lock operations), at most one
background fetch per task is in flight at any point of any schedule. -/
theorem spawn_dedup_atomic (evs : List TMAtomicEv) : (tmAtomicRun evs).2 ≤ 1 := by
  have h := tmAtomic_inv evs (false, 0) (by simp)
  rw [tmAtomicRun]
  rcases hfin : (evs.foldl tmAtomicStep (false, 0)).1 with _ | _
  · rw [hfin] at h
    simp at h
    omega
  · rw [hfin] at h
    simpa using h

/-- C8 counterexample: the claim as stated fails for the source's
two-lock-operation spawn: two concurrent `spawn_task` calls for the same
task that both pass the membership check before either inserts
(check, check, insert+fetch, insert+fetch) leave two background fetches in
flight. -/
theorem spawn_dedup_counterexample :
    (tmRun 2 [.proceed 0, .proceed 1, .proceed 0, .proceed 1]).fetches = 2 ∧
    1 < (tmRun 2 [.proceed 0, .proceed 1, .proceed 0, .proceed 1]).fetches := by
  refine ⟨by decide, by decide⟩
